import Mathlib

/-!
# Verification of `september.py`

A shallow embedding of the core of `september.py`: the tag cache data model,
the tag reconciliation pass, the checkpointed processing loop, the command
template substitution, the repository-backend selection, and the JSON
persistence of the cache.  Machine-level collaborators (subprocess calls,
the filesystem) are represented by their observable values: a command
invocation is a function from (tag name, revision id) to an exit status,
a file is an optional string of contents.
-/

namespace September

/-- A cache record for one tag, as stored in `september.json`:
`{'id': <revision id>, 'processed': <bool>}` (see `main`, lines 225-230). -/
structure TagRecord where
  id : String
  processed : Bool
deriving DecidableEq, Repr

/-- The in-memory `cache['tags']` dictionary: an insertion-ordered mapping
from tag name to `TagRecord`, modelled as an association list.  Python dicts
preserve insertion order and this order drives the processing loop. -/
abbrev TagCache := List (String × TagRecord)

/-- First-match lookup, the semantics of `previous_tags[t]` /
`t in previous_tags` on a dict (keys are unique in any dict-built cache). -/
def lookupTag : TagCache → String → Option TagRecord
  | [], _ => none
  | (k, v) :: rest, t => if k = t then some v else lookupTag rest t

/-- `del previous_tags[t]`: removes the entry for `t`, keeping the order of
the remaining entries (Python dict deletion). -/
def delTag : TagCache → String → TagCache
  | [], _ => []
  | (k, v) :: rest, t => if k = t then rest else (k, v) :: delTag rest t

/-- `previous_tags[t] = rec` for a key already present: replaces the value
in place, keeping the entry's position (Python dict assignment). -/
def setTag : TagCache → String → TagRecord → TagCache
  | [], _, _ => []
  | (k, v) :: rest, t, r => if k = t then (k, r) :: rest else (k, v) :: setTag rest t r

/-- The keys of a cache, in order. -/
def keysOf (c : TagCache) : List String := c.map Prod.fst

/-- The window flag update at the top of the reconciliation loop
(`if not reached_first_tag and first_tag == t: reached_first_tag = True`,
line 215-216).  `ft = none` models an unset (or empty) `first_tag`. -/
def nextReached (ft : Option String) (r : Bool) (t : String) : Bool :=
  if !r && ft = some t then true else r

/-- The tag-pattern test (`if not tag_re or tag_re.search(t)`, line 224):
`none` models no configured pattern; otherwise the compiled regex's `search`
is abstracted as a boolean predicate on the tag name. -/
def matchesPat : Option (String → Bool) → String → Bool
  | none, _ => true
  | some f, t => f t

/-- The body of the reconciliation loop acting on the cache (lines 218-230),
given the already-updated window flag `reached` and the observed pair
`(t, i)`:
* outside the window: `del previous_tags[t]` when present;
* inside, matching the pattern: add `{'id': i, 'processed': False}` when
  absent, replace it when the stored id differs, otherwise leave alone;
* inside, not matching: leave the cache alone. -/
def cacheStep (re : Option (String → Bool)) (tags : TagCache) (reached : Bool)
    (t i : String) : TagCache :=
  if !reached then delTag tags t
  else if matchesPat re t then
    match lookupTag tags t with
    | none => tags ++ [(t, ⟨i, false⟩)]
    | some r => if r.id ≠ i then setTag tags t ⟨i, false⟩ else tags
  else tags

/-- One iteration of `for t, i in tags:` (lines 214-230) on the state
`(reached_first_tag, previous_tags)`. -/
def reconcileStep (ft : Option String) (re : Option (String → Bool))
    (st : Bool × TagCache) (p : String × String) : Bool × TagCache :=
  let r := nextReached ft st.1 p.1
  (r, cacheStep re st.2 r p.1 p.2)

/-- The whole reconciliation pass (lines 211-230): fold the loop body over
the tag stream, starting with `reached_first_tag = not bool(first_tag)` and
the cached tags. -/
def reconcile (ft : Option String) (re : Option (String → Bool))
    (tags : TagCache) (stream : List (String × String)) : TagCache :=
  (stream.foldl (reconcileStep ft re) (ft.isNone, tags)).2

/-- The processing loop (lines 250-268).  `exec tn i` is the exit status of
the configured command run for tag `tn` at revision `i` (`true` = exit 0).
Returns `(final cache, commands invoked in order, completed?)`.  The final
cache is also the content of the persisted cache file: the file is written
after reconciliation and again right after each success, and a non-zero
exit raises out of `main` before `ti['processed'] = True`, so on failure
the file keeps its pre-attempt content.  `repo.update` (line 257) is an
external collaborator whose failure would likewise abort the run; it is
modelled as succeeding so that the command's own outcome is isolated. -/
def runLoop (exec : String → String → Bool) : TagCache → TagCache × List (String × String) × Bool
  | [] => ([], [], true)
  | (tn, ti) :: rest =>
    if ti.processed then
      let r := runLoop exec rest
      ((tn, ti) :: r.1, r.2.1, r.2.2)
    else if exec tn ti.id then
      let r := runLoop exec rest
      ((tn, { ti with processed := true }) :: r.1, (tn, ti.id) :: r.2.1, r.2.2)
    else ((tn, ti) :: rest, [(tn, ti.id)], false)

/-- Entries as the loop leaves them after running past them successfully. -/
def markProcessed (c : TagCache) : TagCache :=
  c.map (fun q => (q.1, { q.2 with processed := true }))

/-- The commands a fully successful pass over `c` invokes: one per entry
whose `processed` flag is false. -/
def execTraceOf (c : TagCache) : List (String × String) :=
  c.filterMap (fun q => if q.2.processed then none else some (q.1, q.2.id))

/-! ## Command template substitution (line 259-262)

`config_sec['command'] % {'rev_id': ti['id'], 'root_dir': clone_dir, 'tag': tn}`
is Python `%`-formatting with a mapping.  It is modelled as a left-to-right
scan: ordinary characters are copied verbatim, `%%` yields `%`, and
`%(key)s` is replaced by the mapping's value for `key`, inserted verbatim
(the value itself is never rescanned and never escaped).  Any other
conversion (a `%` not followed by `%` or `(`, a conversion letter other
than `s`, an unknown key) is an error, modelled as `none`; width/precision
flags and parenthesised keys, which no September template uses, are outside
the modelled subset. -/

/-- State of the `%`-formatting scan. -/
inductive FmtMode where
  | normal
  | sawPct
  | inKey (k : List Char)
  | wantConv (key : String)
deriving DecidableEq, Repr

/-- One character of the `%`-formatting scan.  The accumulator holds the
output built so far, reversed. -/
def fmtStep (m : String → Option String) :
    Option (FmtMode × List Char) → Char → Option (FmtMode × List Char)
  | none, _ => none
  | some (FmtMode.normal, acc), c =>
    if c = '%' then some (FmtMode.sawPct, acc) else some (FmtMode.normal, c :: acc)
  | some (FmtMode.sawPct, acc), c =>
    if c = '%' then some (FmtMode.normal, '%' :: acc)
    else if c = '(' then some (FmtMode.inKey [], acc)
    else none
  | some (FmtMode.inKey k, acc), c =>
    if c = ')' then some (FmtMode.wantConv (String.mk k.reverse), acc)
    else some (FmtMode.inKey (c :: k), acc)
  | some (FmtMode.wantConv key, acc), c =>
    if c = 's' then
      match m key with
      | some v => some (FmtMode.normal, v.data.reverse ++ acc)
      | none => none
    else none

/-- Python `template % mapping` for the modelled subset: the scan must end
back in the normal state (an unterminated conversion is a `ValueError`). -/
def pctFormat (m : String → Option String) (template : String) : Option String :=
  match template.data.foldl (fmtStep m) (some (FmtMode.normal, [])) with
  | some (FmtMode.normal, acc) => some (String.mk acc.reverse)
  | _ => none

/-- The mapping passed at lines 259-262: keys `rev_id`, `root_dir`, `tag`. -/
def tagMapping (revId rootDir tag : String) : String → Option String :=
  fun k =>
    if k = "rev_id" then some revId
    else if k = "root_dir" then some rootDir
    else if k = "tag" then some tag
    else none

/-- The executable command string built for one tag (lines 259-262). -/
def buildCommand (template revId rootDir tag : String) : Option String :=
  pctFormat (tagMapping revId rootDir tag) template

/-! ## Runtime-typed subprocess output and `split` (GitRepo.getTags, lines 40-47)

`subprocess.check_output` without `universal_newlines`/`text` returns
`bytes`; `MercurialRepo.getTags` (line 67) requests text and receives
`str`.  Python 3's `split` dispatches on the runtime types: splitting
`bytes` with a `str` separator (or vice versa) raises `TypeError`. -/

/-- A Python runtime value that is either `bytes` or `str`. -/
inductive PyStr where
  | bytes (data : List Nat)
  | str (s : String)
deriving DecidableEq, Repr

/-- `bytes.split(sep)` for a non-empty separator `s0 :: srest`: greedy
leftmost splitting, `acc` holds the current chunk reversed. -/
def bytesSplit (s0 : Nat) (srest : List Nat) : List Nat → List Nat → List (List Nat)
  | acc, [] => [acc.reverse]
  | acc, x :: rest =>
    if (s0 :: srest).isPrefixOf (x :: rest) then
      acc.reverse :: bytesSplit s0 srest [] (rest.drop srest.length)
    else bytesSplit s0 srest (x :: acc) rest
termination_by _ b => b.length
decreasing_by
  all_goals simp [List.length_drop]
  all_goals omega

/-- Python 3 `a.split(sep)`: defined on matching runtime types, raises
`TypeError` when a `bytes` receiver meets a `str` separator or vice versa,
and `ValueError` on an empty separator. -/
def pySplit : PyStr → PyStr → Except String (List PyStr)
  | PyStr.bytes b, PyStr.bytes sep =>
    match sep with
    | [] => Except.error "ValueError"
    | s0 :: srest => Except.ok ((bytesSplit s0 srest [] b).map PyStr.bytes)
  | PyStr.str a, PyStr.str sep =>
    if sep = "" then Except.error "ValueError"
    else Except.ok ((a.splitOn sep).map PyStr.str)
  | PyStr.bytes _, PyStr.str _ => Except.error "TypeError"
  | PyStr.str _, PyStr.bytes _ => Except.error "TypeError"

/-- `^(?P<id>[0-9a-f]+) (?P<tag>.+)$` applied to one line (lines 43-47):
a maximal non-empty run of lowercase hex digits, a space, then a non-empty
remainder; yields `(tag, id)` as the generator does. -/
def gitMatchLine (line : String) : Option (String × String) :=
  let idPart := line.data.takeWhile (fun c => c.isDigit || ('a' ≤ c && c ≤ 'f'))
  match line.data.drop idPart.length with
  | ' ' :: t => if idPart ≠ [] ∧ t ≠ [] then some (String.mk t, String.mk idPart) else none
  | _ => none

/-- `re.match` with a `str` pattern requires a `str` subject; on `bytes` it
would itself raise, modelled as no match (this branch is unreachable). -/
def pyMatchLine : PyStr → Option (String × String)
  | PyStr.str s => gitMatchLine s
  | PyStr.bytes _ => none

/-- `GitRepo.getTags` (lines 40-47) on the raw subprocess output: the
output is captured as `bytes` (no text mode is requested at lines 41-42)
and then split with the `str` separator `'\n'` at line 44; only if the
split succeeds are lines matched and `(tag, id)` pairs yielded. -/
def gitGetTags (output : List Nat) : Except String (List (String × String)) :=
  match pySplit (PyStr.bytes output) (PyStr.str "\n") with
  | Except.error e => Except.error e
  | Except.ok lines => Except.ok (lines.filterMap pyMatchLine)

/-! ## Backend selection (lines 119-122, 144-153, 202) -/

/-- The `--scm` CLI choices (lines 119-122). -/
def scmChoices : List String := ["guess", "git", "mercurial"]

/-- The keys of the `repo_class` table (lines 81-83). -/
def repoClassKeys : List String := ["git", "hg"]

/-- Lines 144-153: the guess branch runs only when `--scm` is unset or
`guess`; only there are the `None` result and the `repo_class` membership
guard checked (each a `sys.exit(1)`).  An explicit `--scm` value is passed
through unchecked. -/
def resolveRepoType (scm : String) (guessed : Option String) : Except String String :=
  if scm = "" ∨ scm = "guess" then
    match guessed with
    | none => Except.error "exit:cannot-guess"
    | some g =>
      if repoClassKeys.contains g then Except.ok g
      else Except.error "exit:unknown-type"
  else Except.ok scm

/-- Line 202, `repo_class[repo_type]()`: a plain dict lookup, raising
`KeyError` for a key outside the table. -/
def makeRepo (rt : String) : Except String String :=
  if repoClassKeys.contains rt then Except.ok rt else Except.error "KeyError"

/-- The backend obtained for a given `--scm` value and guess result:
selection (lines 144-153) followed by the table lookup (line 202). -/
def backendForScm (scm : String) (guessed : Option String) : Except String String :=
  (resolveRepoType scm guessed).bind makeRepo

/-! ## JSON persistence (lines 186-190 and 232-234)

The cache is persisted with `json.dump(cache, fp)` and read back with
`json.load(fp)`.  The JSON sublanguage the cache uses — objects with
ordered fields, arrays, strings, booleans and `null` — is modelled here;
numbers are outside the model (no September cache field is numeric).
`jdump` mirrors `json.dump`'s default output: separators `', '` and
`': '`, strings quoted with `"` and `\` escaped.  Control and non-ASCII
characters, which `json.dump` writes as `\uXXXX` escapes, are outside the
modelled subset; `reprOk` marks the values the model is faithful on. -/

/-- A JSON value, with object fields kept in order (Python's `json.load`
builds insertion-ordered dicts, `json.dump` writes fields in that order). -/
inductive JValue where
  | null
  | bool (b : Bool)
  | str (s : String)
  | arr (elems : List JValue)
  | obj (fields : List (String × JValue))
deriving Repr

/-- String escaping in `json.dump` for the modelled character range. -/
def escChar (c : Char) : List Char :=
  if c = '"' then ['\\', '"'] else if c = '\\' then ['\\', '\\'] else [c]

/-- A serialized JSON string literal. -/
def dumpStr (s : String) : List Char :=
  '"' :: (s.data.map escChar).flatten ++ ['"']

mutual

/-- `json.dump` of one value, as a character list. -/
def jdump : JValue → List Char
  | JValue.null => ['n', 'u', 'l', 'l']
  | JValue.bool true => ['t', 'r', 'u', 'e']
  | JValue.bool false => ['f', 'a', 'l', 's', 'e']
  | JValue.str s => dumpStr s
  | JValue.arr xs => '[' :: jdumpElems xs ++ [']']
  | JValue.obj fs => '{' :: jdumpFields fs ++ ['}']

/-- Array elements, separated by `', '`. -/
def jdumpElems : List JValue → List Char
  | [] => []
  | [x] => jdump x
  | x :: y :: xs => jdump x ++ ',' :: ' ' :: jdumpElems (y :: xs)

/-- Object fields, `"key": value` separated by `', '`. -/
def jdumpFields : List (String × JValue) → List Char
  | [] => []
  | [(k, v)] => dumpStr k ++ ':' :: ' ' :: jdump v
  | (k, v) :: f :: fs => dumpStr k ++ ':' :: ' ' :: jdump v ++ ',' :: ' ' :: jdumpFields (f :: fs)

end

/-- Characters on which the serializer matches Python byte for byte:
printable ASCII. -/
def charOk (c : Char) : Bool := 0x20 ≤ c.toNat && c.toNat ≤ 0x7e

mutual

/-- The strings of `v` contain only characters the model serializes the
way Python does. -/
def reprOk : JValue → Bool
  | JValue.null => true
  | JValue.bool _ => true
  | JValue.str s => s.data.all charOk
  | JValue.arr xs => reprOkElems xs
  | JValue.obj fs => reprOkFields fs

/-- `reprOk` on each element of an array. -/
def reprOkElems : List JValue → Bool
  | [] => true
  | x :: xs => reprOk x && reprOkElems xs

/-- `reprOk` on each key and value of an object. -/
def reprOkFields : List (String × JValue) → Bool
  | [] => true
  | (k, v) :: fs => k.data.all charOk && reprOk v && reprOkFields fs

end

/-- JSON insignificant whitespace. -/
def skipWs : List Char → List Char
  | [] => []
  | c :: cs => if c = ' ' ∨ c = '\n' ∨ c = '\t' ∨ c = '\r' then skipWs cs else c :: cs

/-- The character named by a string escape, if the escape is in the
modelled subset (`\uXXXX` is not). -/
def unescape (c : Char) : Option Char :=
  if c = '"' then some '"'
  else if c = '\\' then some '\\'
  else if c = '/' then some '/'
  else if c = 'n' then some '\n'
  else if c = 't' then some '\t'
  else if c = 'r' then some '\r'
  else if c = 'b' then some (Char.ofNat 8)
  else if c = 'f' then some (Char.ofNat 12)
  else none

/-- The body of a string literal, after the opening quote; `acc` holds the
characters read so far, reversed. -/
def parseStrBody (fuel : Nat) (acc : List Char) (input : List Char) :
    Option (String × List Char) :=
  match fuel, input with
  | 0, _ => none
  | _ + 1, [] => none
  | f + 1, c :: cs =>
    if c = '"' then some (String.mk acc.reverse, cs)
    else if c = '\\' then
      match cs with
      | [] => none
      | e :: cs2 =>
        match unescape e with
        | some d => parseStrBody f (d :: acc) cs2
        | none => none
    else parseStrBody f (c :: acc) cs

/-- A literal keyword (`null`, `true`, `false`) after its first character:
each expected character must be present, and the remainder is returned. -/
def parseLit : List Char → List Char → Option (List Char)
  | [], input => some input
  | _ :: _, [] => none
  | p :: ps, c :: cs => if p = c then parseLit ps cs else none

mutual

/-- One JSON value (recursive descent; `fuel` only bounds recursion and is
chosen large enough by `jparse`). -/
def parseVal (fuel : Nat) (input : List Char) : Option (JValue × List Char) :=
  match fuel with
  | 0 => none
  | f + 1 =>
    match skipWs input with
    | '"' :: cs => (parseStrBody f [] cs).map (fun p => (JValue.str p.1, p.2))
    | '[' :: cs =>
      match skipWs cs with
      | ']' :: cs2 => some (JValue.arr [], cs2)
      | _ => (parseElems f cs).map (fun p => (JValue.arr p.1, p.2))
    | '{' :: cs =>
      match skipWs cs with
      | '}' :: cs2 => some (JValue.obj [], cs2)
      | _ => (parseFields f cs).map (fun p => (JValue.obj p.1, p.2))
    | 'n' :: cs => (parseLit ['u', 'l', 'l'] cs).map (fun r => (JValue.null, r))
    | 't' :: cs => (parseLit ['r', 'u', 'e'] cs).map (fun r => (JValue.bool true, r))
    | 'f' :: cs => (parseLit ['a', 'l', 's', 'e'] cs).map (fun r => (JValue.bool false, r))
    | _ => none

/-- One or more comma-separated array elements and the closing bracket. -/
def parseElems (fuel : Nat) (input : List Char) : Option (List JValue × List Char) :=
  match fuel with
  | 0 => none
  | f + 1 =>
    match parseVal f input with
    | none => none
    | some (v, rest) =>
      match skipWs rest with
      | ',' :: rest2 => (parseElems f rest2).map (fun p => (v :: p.1, p.2))
      | ']' :: rest2 => some ([v], rest2)
      | _ => none

/-- One or more comma-separated object fields and the closing brace. -/
def parseFields (fuel : Nat) (input : List Char) :
    Option (List (String × JValue) × List Char) :=
  match fuel with
  | 0 => none
  | f + 1 =>
    match skipWs input with
    | '"' :: cs =>
      match parseStrBody f [] cs with
      | none => none
      | some (k, rest) =>
        match skipWs rest with
        | ':' :: rest2 =>
          match parseVal f rest2 with
          | none => none
          | some (v, rest3) =>
            match skipWs rest3 with
            | ',' :: rest4 => (parseFields f rest4).map (fun p => ((k, v) :: p.1, p.2))
            | '}' :: rest4 => some ([(k, v)], rest4)
            | _ => none
        | _ => none
    | _ => none

end

/-- `json.dump(cache, fp)`: the text written to `september.json`. -/
def jsave (v : JValue) : String := String.mk (jdump v)

/-- `json.load(fp)`: parse the whole file; trailing content other than
whitespace is an error. -/
def jparse (s : String) : Option JValue :=
  match parseVal (2 * s.data.length + 3) s.data with
  | some (v, rest) => if skipWs rest = [] then some v else none
  | none => none

/-- Lines 186-190: the cache file is read if it exists, and the cache
`{'tags': {}}` is used when it does not.  The argument is the file's
contents when the file exists, `none` when it is absent. -/
def loadCache : Option String → Option JValue
  | none => some (JValue.obj [("tags", JValue.obj [])])
  | some contents => jparse contents

/-! ## Theorems -/

/-- C8: if the cache file does not exist at the configured path, loading
returns the empty cache `{'tags': {}}` — a mapping whose `tags` object has
no entries — rather than an error. -/
theorem claim_C8_missing_file_empty_cache :
    loadCache none = some (JValue.obj [("tags", JValue.obj [])]) := rfl

/-- C9: for every possible subprocess output, `GitRepo.getTags` raises
`TypeError` before yielding any `(tag, revisionId)` pair: the output is
captured as `bytes` (no text mode is requested) and then split with the
`str` separator `'\n'`, so the git tag listing can never succeed. -/
theorem claim_C9_gitGetTags_type_error (output : List Nat) :
    gitGetTags output = Except.error "TypeError" := rfl

/-- C10: `'mercurial'` is an accepted `--scm` choice, yet backend
construction for it fails with an unhandled `KeyError`: the `repo_class`
table keys only `'git'` and `'hg'`, and the unknown-kind guard runs only
inside the auto-detect branch, so an explicit override is passed through
unchecked straight into the table lookup. -/
theorem claim_C10_mercurial_keyerror :
    scmChoices.contains "mercurial" = true
    ∧ (∀ guessed : Option String,
        backendForScm "mercurial" guessed = Except.error "KeyError")
    ∧ (∀ (scm : String) (guessed : Option String), scm ≠ "" → scm ≠ "guess" →
        resolveRepoType scm guessed = Except.ok scm) := by
  refine ⟨rfl, fun _ => rfl, fun scm guessed h1 h2 => ?_⟩
  simp [resolveRepoType, h1, h2]

/-- Witness for C10 at `--scm mercurial` with a git directory guessed. -/
theorem claim_C10_witness :
    backendForScm "mercurial" (some "git") = Except.error "KeyError"
    ∧ resolveRepoType "git" none = Except.ok "git" :=
  ⟨claim_C10_mercurial_keyerror.2.1 (some "git"),
   claim_C10_mercurial_keyerror.2.2 "git" none (by decide) (by decide)⟩

/-- C3 counterexample: the configured template's brace placeholders
`{revisionId}`, `{rootDir}`, `{tagName}` are not substituted at all — the
built command string is the template verbatim, not the substituted one.
The code substitutes Python `%`-style named placeholders instead. -/
theorem claim_C3_counterexample :
    buildCommand "{revisionId} {rootDir} {tagName}" "r" "/d" "t"
      = some "{revisionId} {rootDir} {tagName}"
    ∧ buildCommand "{revisionId} {rootDir} {tagName}" "r" "/d" "t"
      ≠ some "r /d t" := by
  exact ⟨rfl, by decide⟩

/-- Characters of a literal template segment are copied verbatim by the
`%`-formatting scan when the segment contains no `%`. -/
theorem fmtRunPlain (m : String → Option String) :
    ∀ (cs acc : List Char), '%' ∉ cs →
      List.foldl (fmtStep m) (some (FmtMode.normal, acc)) cs
        = some (FmtMode.normal, cs.reverse ++ acc) := by
  intro cs
  induction cs with
  | nil => intro acc _; simp
  | cons c cs ih =>
    intro acc h
    rw [List.mem_cons, not_or] at h
    have hc : ¬ c = '%' := fun hcc => h.1 hcc.symm
    simp only [List.foldl_cons, fmtStep, if_neg hc]
    rw [ih (c :: acc) h.2]
    simp

/-- The scan replaces `%(rev_id)s` with the revision id, verbatim. -/
theorem fmtRunRevId (r d t : String) (acc : List Char) :
    List.foldl (fmtStep (tagMapping r d t)) (some (FmtMode.normal, acc)) "%(rev_id)s".data
      = some (FmtMode.normal, r.data.reverse ++ acc) := rfl

/-- The scan replaces `%(root_dir)s` with the clone directory, verbatim. -/
theorem fmtRunRootDir (r d t : String) (acc : List Char) :
    List.foldl (fmtStep (tagMapping r d t)) (some (FmtMode.normal, acc)) "%(root_dir)s".data
      = some (FmtMode.normal, d.data.reverse ++ acc) := rfl

/-- The scan replaces `%(tag)s` with the tag name, verbatim. -/
theorem fmtRunTag (r d t : String) (acc : List Char) :
    List.foldl (fmtStep (tagMapping r d t)) (some (FmtMode.normal, acc)) "%(tag)s".data
      = some (FmtMode.normal, t.data.reverse ++ acc) := rfl

/-- C3, amended: the executable command is built by substituting the
Python `%`-style named placeholders `%(rev_id)s`, `%(root_dir)s` and
`%(tag)s` — not `{revisionId}`, `{rootDir}`, `{tagName}` — with the
record's revision id, the clone directory and the tag name, verbatim and
with no escaping. -/
theorem claim_C3_amended_placeholders (s1 s2 s3 s4 r d t : String)
    (h1 : '%' ∉ s1.data) (h2 : '%' ∉ s2.data) (h3 : '%' ∉ s3.data)
    (h4 : '%' ∉ s4.data) :
    buildCommand (s1 ++ "%(rev_id)s" ++ s2 ++ "%(root_dir)s" ++ s3 ++ "%(tag)s" ++ s4)
        r d t
      = some (s1 ++ r ++ s2 ++ d ++ s3 ++ t ++ s4) := by
  unfold buildCommand pctFormat
  rw [show (s1 ++ "%(rev_id)s" ++ s2 ++ "%(root_dir)s" ++ s3 ++ "%(tag)s" ++ s4).data
        = s1.data ++ "%(rev_id)s".data ++ s2.data ++ "%(root_dir)s".data
            ++ s3.data ++ "%(tag)s".data ++ s4.data by simp [String.data_append]]
  rw [List.foldl_append, List.foldl_append, List.foldl_append, List.foldl_append,
      List.foldl_append, List.foldl_append]
  rw [fmtRunPlain _ _ _ h1, fmtRunRevId, fmtRunPlain _ _ _ h2, fmtRunRootDir,
      fmtRunPlain _ _ _ h3, fmtRunTag, fmtRunPlain _ _ _ h4]
  have hdata : (s1 ++ r ++ s2 ++ d ++ s3 ++ t ++ s4).data
      = s1.data ++ r.data ++ s2.data ++ d.data ++ s3.data ++ t.data ++ s4.data := by
    simp [String.data_append]
  show some (String.mk _) = _
  rw [show (s1 ++ r ++ s2 ++ d ++ s3 ++ t ++ s4) = String.mk ((s1 ++ r ++ s2 ++ d ++ s3 ++ t ++ s4).data) from rfl]
  rw [hdata]
  congr 1
  simp [List.reverse_append, List.append_assoc]

/-- Witness for C3's amended theorem on a concrete template. -/
theorem claim_C3_witness :
    buildCommand ("deploy " ++ "%(rev_id)s" ++ " -C " ++ "%(root_dir)s" ++ " -t "
        ++ "%(tag)s" ++ " now") "abc" "/tmp/x" "v1"
      = some ("deploy " ++ "abc" ++ " -C " ++ "/tmp/x" ++ " -t " ++ "v1" ++ " now") :=
  claim_C3_amended_placeholders "deploy " " -C " " -t " " now" "abc" "/tmp/x" "v1"
    (by decide) (by decide) (by decide) (by decide)

/-- Every command the loop invokes belongs to an entry whose stored
`processed` flag is false. -/
theorem runLoop_trace_sound (exec : String → String → Bool) :
    ∀ (cache : TagCache) (p : String × String), p ∈ (runLoop exec cache).2.1 →
      ∃ r : TagRecord, (p.1, r) ∈ cache ∧ r.processed = false ∧ p.2 = r.id := by
  intro cache
  induction cache with
  | nil => intro p hp; simp [runLoop] at hp
  | cons q rest ih =>
    obtain ⟨tn, ti⟩ := q
    intro p hp
    by_cases hproc : ti.processed
    · simp only [runLoop, if_pos hproc] at hp
      obtain ⟨r, hr, hrp, hrid⟩ := ih p hp
      exact ⟨r, List.mem_cons_of_mem _ hr, hrp, hrid⟩
    · by_cases hex : exec tn ti.id
      · simp only [runLoop, if_neg hproc, if_pos hex, List.mem_cons] at hp
        rcases hp with hp | hp
        · subst hp
          exact ⟨ti, List.mem_cons_self _ _, by simpa using hproc, rfl⟩
        · obtain ⟨r, hr, hrp, hrid⟩ := ih p hp
          exact ⟨r, List.mem_cons_of_mem _ hr, hrp, hrid⟩
      · simp only [runLoop, if_neg hproc, if_neg hex, List.mem_singleton] at hp
        subst hp
        exact ⟨ti, List.mem_cons_self _ _, by simpa using hproc, rfl⟩

/-- In a cache with unique tag names, two entries with the same name are
the same entry. -/
theorem mem_keysNodup_unique {c : TagCache} {t : String} {r r' : TagRecord}
    (hnd : (keysOf c).Nodup) (h1 : (t, r) ∈ c) (h2 : (t, r') ∈ c) : r = r' := by
  induction c with
  | nil => simp at h1
  | cons q rest ih =>
    simp only [keysOf, List.map_cons, List.nodup_cons] at hnd
    rcases List.mem_cons.mp h1 with he1 | he1 <;>
      rcases List.mem_cons.mp h2 with he2 | he2
    · rw [← he1] at he2; exact (Prod.mk.injEq _ _ _ _ ▸ he2).2.symm
    · exfalso
      have : t ∈ keysOf rest := List.mem_map_of_mem Prod.fst he2
      rw [← he1] at hnd
      exact hnd.1 this
    · exfalso
      have : t ∈ keysOf rest := List.mem_map_of_mem Prod.fst he1
      rw [← he2] at hnd
      exact hnd.1 this
    · exact ih hnd.2 he1 he2

/-- C1: the processing loop never executes the command for a tag whose
record has `processed = true` (for caches with unique tag names, as every
dict-loaded cache has); and concretely, on a cache of three tags whose
first two are `processed:true`, the loop runs the command exactly once,
for the third tag only, and leaves the first two records unchanged —
whatever exit status the command returns. -/
theorem claim_C1_processed_never_reexecuted :
    (∀ (exec : String → String → Bool) (cache : TagCache) (t : String) (r : TagRecord),
      (keysOf cache).Nodup → (t, r) ∈ cache → r.processed = true →
        (t, r.id) ∉ (runLoop exec cache).2.1)
    ∧ (∀ (exec : String → String → Bool) (t1 t2 t3 i1 i2 i3 : String),
        (runLoop exec [(t1, ⟨i1, true⟩), (t2, ⟨i2, true⟩), (t3, ⟨i3, false⟩)]).2.1
          = [(t3, i3)]
        ∧ (runLoop exec [(t1, ⟨i1, true⟩), (t2, ⟨i2, true⟩), (t3, ⟨i3, false⟩)]).1.take 2
          = [(t1, ⟨i1, true⟩), (t2, ⟨i2, true⟩)]) := by
  constructor
  · intro exec cache t r hnd hmem hproc htr
    obtain ⟨r', hr', hrp', hrid'⟩ := runLoop_trace_sound exec cache (t, r.id) htr
    have : r = r' := mem_keysNodup_unique hnd hmem hr'
    rw [← this] at hrp'
    rw [hproc] at hrp'
    exact Bool.true_eq_false.mp hrp'
  · intro exec t1 t2 t3 i1 i2 i3
    cases hex : exec t3 i3 <;> simp [runLoop, hex]

/-- Witness for C1 on a concrete three-tag cache. -/
theorem claim_C1_witness :
    (keysOf [("a", TagRecord.mk "1" true), ("b", TagRecord.mk "2" false)]).Nodup
    ∧ ("a", TagRecord.mk "1" true)
        ∈ [("a", TagRecord.mk "1" true), ("b", TagRecord.mk "2" false)]
    ∧ (TagRecord.mk "1" true).processed = true
    ∧ ("a", "1") ∉ (runLoop (fun _ _ => true)
        [("a", TagRecord.mk "1" true), ("b", TagRecord.mk "2" false)]).2.1 :=
  ⟨by decide, by decide, rfl,
   claim_C1_processed_never_reexecuted.1 (fun _ _ => true) _ "a" (TagRecord.mk "1" true)
     (by decide) (by decide) rfl⟩

/-- C4: if the loop reaches a tag whose record is unprocessed (every
unprocessed tag before it having succeeded) and the command exits
non-zero, the run stops: the failing tag's `processed` stays false, the
final (persisted) cache is exactly the pre-attempt state — the earlier
entries marked as this run left them, the failing entry and all later
entries untouched — and no command is invoked for any later tag. -/
theorem claim_C4_failure_halts (exec : String → String → Bool)
    (pre : TagCache) (t : String) (r : TagRecord) (post : TagCache)
    (hpre : ∀ q ∈ pre, q.2.processed = false → exec q.1 q.2.id = true)
    (hr : r.processed = false) (hfail : exec t r.id = false) :
    runLoop exec (pre ++ (t, r) :: post)
      = (markProcessed pre ++ (t, r) :: post, execTraceOf pre ++ [(t, r.id)], false) := by
  induction pre with
  | nil =>
    simp [runLoop, hr, hfail, markProcessed, execTraceOf]
  | cons q pre' ih =>
    obtain ⟨qn, qi⟩ := q
    have ih' := ih (fun q hq => hpre q (List.mem_cons_of_mem _ hq))
    by_cases hq : qi.processed
    · have hqeq : { qi with processed := true } = qi := by
        cases qi with
        | mk id processed => simp at hq; rw [hq]
      simp only [List.cons_append, runLoop, if_pos hq, markProcessed,
        List.map_cons, execTraceOf, List.filterMap_cons, hq, if_pos]
      simp [ih', hqeq, markProcessed, execTraceOf]
    · have hqex : exec qn qi.id = true := by
        have := hpre (qn, qi) (List.mem_cons_self _ _)
        simp at hq
        exact this hq
      simp only [List.cons_append, runLoop, if_neg hq, hqex, if_pos]
      simp [ih', markProcessed, execTraceOf, hq]

/-- Witness for C4: second of three tags fails. -/
theorem claim_C4_witness :
    runLoop (fun tn _ => tn ≠ "b")
        ([("a", TagRecord.mk "1" false)] ++ ("b", TagRecord.mk "2" false)
          :: [("c", TagRecord.mk "3" false)])
      = (markProcessed [("a", TagRecord.mk "1" false)]
          ++ ("b", TagRecord.mk "2" false) :: [("c", TagRecord.mk "3" false)],
         execTraceOf [("a", TagRecord.mk "1" false)] ++ [("b", "2")],
         false) :=
  claim_C4_failure_halts (fun tn _ => tn ≠ "b") [("a", TagRecord.mk "1" false)]
    "b" (TagRecord.mk "2" false) [("c", TagRecord.mk "3" false)]
    (by decide) rfl (by decide)

/-- A key with no entry is exactly a key outside `keysOf`. -/
theorem lookupTag_eq_none {c : TagCache} {t : String} :
    lookupTag c t = none ↔ t ∉ keysOf c := by
  induction c with
  | nil => simp [lookupTag, keysOf]
  | cons q rest ih =>
    obtain ⟨k, v⟩ := q
    by_cases hk : k = t
    · subst hk
      simp [lookupTag, keysOf]
    · rw [show lookupTag ((k, v) :: rest) t = lookupTag rest t by simp [lookupTag, hk]]
      rw [ih]
      simp only [keysOf, List.map_cons, List.mem_cons, not_or]
      exact ⟨fun h => ⟨fun h' => hk h'.symm, h⟩, fun h => h.2⟩

/-- A found key is in `keysOf`. -/
theorem lookupTag_some_mem {c : TagCache} {t : String} {r : TagRecord}
    (h : lookupTag c t = some r) : t ∈ keysOf c := by
  by_contra hmem
  rw [← lookupTag_eq_none] at hmem
  rw [h] at hmem
  exact Option.some_ne_none r hmem

/-- Deletion yields a sublist of the original entries. -/
theorem delTag_sublist (c : TagCache) (t : String) : List.Sublist (delTag c t) c := by
  induction c with
  | nil => simp [delTag]
  | cons q rest ih =>
    obtain ⟨k, v⟩ := q
    by_cases hk : k = t
    · simp only [delTag, if_pos hk]
      exact List.sublist_cons_self _ _
    · simp only [delTag, if_neg hk]
      exact List.Sublist.cons₂ _ ih

/-- Deletion preserves uniqueness of keys. -/
theorem delTag_keys_nodup {c : TagCache} {t : String} (h : (keysOf c).Nodup) :
    (keysOf (delTag c t)).Nodup := by
  simp only [keysOf] at h ⊢
  exact h.sublist ((delTag_sublist c t).map Prod.fst)

/-- With unique keys, the deleted key is gone. -/
theorem delTag_not_mem_keys {c : TagCache} {t : String} (h : (keysOf c).Nodup) :
    t ∉ keysOf (delTag c t) := by
  induction c with
  | nil => simp [delTag, keysOf]
  | cons q rest ih =>
    obtain ⟨k, v⟩ := q
    simp only [keysOf, List.map_cons, List.nodup_cons] at h
    by_cases hk : k = t
    · subst hk
      simp only [delTag, if_pos rfl]
      exact h.1
    · simp only [delTag, if_neg hk, keysOf, List.map_cons, List.mem_cons]
      rintro (h' | h')
      · exact hk h'.symm
      · exact ih h.2 h'

/-- Deleting an absent key is the identity. -/
theorem delTag_of_not_mem {c : TagCache} {t : String} (h : t ∉ keysOf c) :
    delTag c t = c := by
  induction c with
  | nil => rfl
  | cons q rest ih =>
    obtain ⟨k, v⟩ := q
    simp only [keysOf, List.map_cons, List.mem_cons, not_or] at h
    simp only [delTag, if_neg (fun hk : k = t => h.1 hk.symm)]
    rw [ih h.2]

/-- Deleting one key does not change lookups of another. -/
theorem lookupTag_delTag_ne {c : TagCache} {u t : String} (h : u ≠ t) :
    lookupTag (delTag c u) t = lookupTag c t := by
  induction c with
  | nil => rfl
  | cons q rest ih =>
    obtain ⟨k, v⟩ := q
    by_cases hk : k = u
    · subst hk
      simp [delTag, lookupTag, h]
    · by_cases ht : k = t
      · subst ht
        simp [delTag, hk, lookupTag]
      · simp [delTag, hk, lookupTag, ht, ih]

/-- In-place update does not change the key sequence. -/
theorem setTag_keys (c : TagCache) (t : String) (r : TagRecord) :
    keysOf (setTag c t r) = keysOf c := by
  induction c with
  | nil => rfl
  | cons q rest ih =>
    obtain ⟨k, v⟩ := q
    by_cases hk : k = t
    · simp [setTag, hk, keysOf]
    · simp only [setTag, if_neg hk, keysOf, List.map_cons]
      exact congrArg (List.cons k) ih

/-- Updating one key does not change lookups of another. -/
theorem lookupTag_setTag_ne {c : TagCache} {u t : String} {r : TagRecord} (h : u ≠ t) :
    lookupTag (setTag c u r) t = lookupTag c t := by
  induction c with
  | nil => rfl
  | cons q rest ih =>
    obtain ⟨k, v⟩ := q
    by_cases hk : k = u
    · subst hk
      simp [setTag, lookupTag, h]
    · by_cases ht : k = t
      · subst ht
        simp [setTag, hk, lookupTag]
      · simp [setTag, hk, lookupTag, ht, ih]

/-- Updating a present key makes its lookup the new record. -/
theorem lookupTag_setTag_self {c : TagCache} {t : String} {r : TagRecord}
    (h : t ∈ keysOf c) : lookupTag (setTag c t r) t = some r := by
  induction c with
  | nil => simp [keysOf] at h
  | cons q rest ih =>
    obtain ⟨k, v⟩ := q
    by_cases hk : k = t
    · simp [setTag, hk, lookupTag]
    · simp only [keysOf, List.map_cons, List.mem_cons] at h
      rcases h with h | h
      · exact absurd h.symm hk
      · simp [setTag, hk, lookupTag, ih h]

/-- Appending an entry for another key does not change a lookup. -/
theorem lookupTag_append_ne {c : TagCache} {u t : String} {r : TagRecord} (h : t ≠ u) :
    lookupTag (c ++ [(u, r)]) t = lookupTag c t := by
  induction c with
  | nil => simp [lookupTag, h.symm]
  | cons q rest ih =>
    obtain ⟨k, v⟩ := q
    by_cases hk : k = t
    · simp [lookupTag, hk]
    · simp [lookupTag, hk, ih]

/-- Appending an entry for an absent key makes its lookup the new record. -/
theorem lookupTag_append_self {c : TagCache} {u : String} {r : TagRecord}
    (h : lookupTag c u = none) : lookupTag (c ++ [(u, r)]) u = some r := by
  induction c with
  | nil => simp [lookupTag]
  | cons q rest ih =>
    obtain ⟨k, v⟩ := q
    by_cases hk : k = u
    · simp [lookupTag, hk] at h
    · simp only [lookupTag, if_neg hk] at h
      simp [lookupTag, hk, ih h]

/-- Keys after an append. -/
theorem keysOf_append (c : TagCache) (u : String) (r : TagRecord) :
    keysOf (c ++ [(u, r)]) = keysOf c ++ [u] := by
  simp [keysOf]

/-- One reconciliation action preserves uniqueness of cache keys. -/
theorem cacheStep_keys_nodup (re : Option (String → Bool)) (rch : Bool) (t i : String)
    {c : TagCache} (h : (keysOf c).Nodup) :
    (keysOf (cacheStep re c rch t i)).Nodup := by
  cases rch
  · simpa [cacheStep] using delTag_keys_nodup h
  · by_cases hm : matchesPat re t = true
    · cases hl : lookupTag c t with
      | none =>
        have hmem : t ∉ keysOf c := lookupTag_eq_none.mp hl
        simp only [cacheStep, Bool.not_true, Bool.false_eq_true, if_false, hm, if_true, hl]
        rw [keysOf_append]
        simp [List.nodup_append, h, hmem]
      | some r =>
        by_cases hid : r.id ≠ i
        · simp only [cacheStep, Bool.not_true, Bool.false_eq_true, if_false, hm, if_true, hl]
          rw [if_pos hid, setTag_keys]
          exact h
        · simpa [cacheStep, hm, hl, hid] using h
    · simpa [cacheStep, hm] using h

/-- One reconciliation action for key `u` does not change the lookup of a
different key `t`. -/
theorem cacheStep_lookup_ne (re : Option (String → Bool)) (rch : Bool) {u t : String}
    (i : String) (c : TagCache) (h : u ≠ t) :
    lookupTag (cacheStep re c rch u i) t = lookupTag c t := by
  cases rch
  · simpa [cacheStep] using lookupTag_delTag_ne h
  · by_cases hm : matchesPat re u = true
    · cases hl : lookupTag c u with
      | none =>
        simp only [cacheStep, Bool.not_true, Bool.false_eq_true, if_false, hm, if_true, hl]
        exact lookupTag_append_ne h.symm
      | some r =>
        by_cases hid : r.id ≠ i
        · simp only [cacheStep, Bool.not_true, Bool.false_eq_true, if_false, hm, if_true, hl]
          rw [if_pos hid]
          exact lookupTag_setTag_ne h
        · simp [cacheStep, hm, hl, hid]
    · simp [cacheStep, hm]

/-- One reconciliation action for key `u` cannot introduce a different
absent key `t`. -/
theorem cacheStep_not_mem (re : Option (String → Bool)) (rch : Bool) {u t : String}
    (i : String) {c : TagCache} (hmem : t ∉ keysOf c) (h : u ≠ t) :
    t ∉ keysOf (cacheStep re c rch u i) := by
  rw [← lookupTag_eq_none] at hmem ⊢
  rw [cacheStep_lookup_ne re rch i c h]
  exact hmem

/-- Keys after one reconciliation action are among the old keys and the
stepped key. -/
theorem cacheStep_keys_subset (re : Option (String → Bool)) (rch : Bool) (u i : String)
    (c : TagCache) : keysOf (cacheStep re c rch u i) ⊆ u :: keysOf c := by
  cases rch
  · intro x hx
    exact List.mem_cons_of_mem _ ((delTag_sublist c u).map Prod.fst |>.subset hx)
  · by_cases hm : matchesPat re u = true
    · cases hl : lookupTag c u with
      | none =>
        simp only [cacheStep, Bool.not_true, Bool.false_eq_true, if_false, hm, if_true, hl]
        rw [keysOf_append]
        intro x hx
        rcases List.mem_append.mp hx with hx | hx
        · exact List.mem_cons_of_mem _ hx
        · simp only [List.mem_singleton] at hx
          exact hx ▸ List.mem_cons_self _ _
      | some r =>
        by_cases hid : r.id ≠ i
        · simp only [cacheStep, Bool.not_true, Bool.false_eq_true, if_false, hm, if_true, hl]
          rw [if_pos hid, setTag_keys]
          exact List.subset_cons_self _ _
        · simp only [cacheStep, hm, hl, hid]
          simp
    · simp only [cacheStep, Bool.not_true, Bool.false_eq_true, if_false, hm, if_false]
      exact List.subset_cons_self _ _

/-- Inside the window, after an action for a matching tag the cache holds a
record with the observed revision id; its `processed` flag can still be
true only when exactly this record was already stored. -/
theorem cacheStep_lookup_upsert (re : Option (String → Bool)) {t : String} (i : String)
    (c : TagCache) (hm : matchesPat re t = true) :
    ∃ pr : Bool, lookupTag (cacheStep re c true t i) t = some ⟨i, pr⟩
      ∧ (pr = true → lookupTag c t = some ⟨i, true⟩) := by
  cases hl : lookupTag c t with
  | none =>
    refine ⟨false, ?_, by simp⟩
    simp only [cacheStep, Bool.not_true, Bool.false_eq_true, if_false, hm, if_true, hl]
    exact lookupTag_append_self hl
  | some r =>
    by_cases hid : r.id ≠ i
    · refine ⟨false, ?_, by simp⟩
      simp only [cacheStep, Bool.not_true, Bool.false_eq_true, if_false, hm, if_true, hl]
      rw [if_pos hid]
      exact lookupTag_setTag_self (lookupTag_some_mem hl)
    · rw [not_not] at hid
      subst hid
      refine ⟨r.processed, ?_, ?_⟩
      · have hstep : cacheStep re c true t r.id = c := by
          simp [cacheStep, hm, hl]
        rw [hstep, hl]
      · intro hp
        rw [← hp]

/-- The window flag after a reconciliation fold does not depend on the
starting cache. -/
theorem reconcileFold_fst (ft : Option String) (re : Option (String → Bool)) :
    ∀ (s : List (String × String)) (r : Bool) (c c' : TagCache),
      (List.foldl (reconcileStep ft re) (r, c) s).1
        = (List.foldl (reconcileStep ft re) (r, c') s).1 := by
  intro s
  induction s with
  | nil => intro r c c'; rfl
  | cons p s ih =>
    intro r c c'
    simp only [List.foldl_cons]
    exact ih _ _ _

/-- A key not stepped by the remaining stream keeps its lookup through the
fold. -/
theorem reconcileFold_lookup_ne (ft : Option String) (re : Option (String → Bool))
    {t : String} :
    ∀ (s : List (String × String)) (r : Bool) (c : TagCache), t ∉ s.map Prod.fst →
      lookupTag ((List.foldl (reconcileStep ft re) (r, c) s).2) t = lookupTag c t := by
  intro s
  induction s with
  | nil => intro r c _; rfl
  | cons p s ih =>
    intro r c ht
    simp only [List.map_cons, List.mem_cons, not_or] at ht
    simp only [List.foldl_cons]
    rw [ih _ _ (ht.2)]
    exact cacheStep_lookup_ne re _ _ _ (fun h => ht.1 h.symm)

/-- A key absent from the cache and not stepped by the remaining stream
stays absent through the fold. -/
theorem reconcileFold_not_mem (ft : Option String) (re : Option (String → Bool))
    {t : String} :
    ∀ (s : List (String × String)) (r : Bool) (c : TagCache), t ∉ keysOf c →
      t ∉ s.map Prod.fst →
      t ∉ keysOf ((List.foldl (reconcileStep ft re) (r, c) s).2) := by
  intro s r c hc ht
  rw [← lookupTag_eq_none] at hc ⊢
  rw [reconcileFold_lookup_ne ft re s r c ht]
  exact hc

/-- The fold preserves uniqueness of cache keys. -/
theorem reconcileFold_keys_nodup (ft : Option String) (re : Option (String → Bool)) :
    ∀ (s : List (String × String)) (r : Bool) (c : TagCache), (keysOf c).Nodup →
      (keysOf ((List.foldl (reconcileStep ft re) (r, c) s).2)).Nodup := by
  intro s
  induction s with
  | nil => intro r c h; exact h
  | cons p s ih =>
    intro r c h
    simp only [List.foldl_cons]
    exact ih _ _ (cacheStep_keys_nodup re _ p.1 p.2 h)

/-- Re-running the reconciliation fold on its own output is the identity,
provided the stream steps each tag name at most once and the starting
cache has unique keys. -/
theorem reconcileFold_idem (ft : Option String) (re : Option (String → Bool)) :
    ∀ (s : List (String × String)) (r : Bool) (c : TagCache),
      (s.map Prod.fst).Nodup → (keysOf c).Nodup →
      List.foldl (reconcileStep ft re)
          (r, (List.foldl (reconcileStep ft re) (r, c) s).2) s
        = List.foldl (reconcileStep ft re) (r, c) s := by
  intro s
  induction s with
  | nil => intro r c _ _; rfl
  | cons p s ih =>
    rintro r c hs hc
    obtain ⟨t, i⟩ := p
    simp only [List.map_cons, List.nodup_cons] at hs
    have hstep : ∀ d : TagCache, reconcileStep ft re (r, d) (t, i)
        = (nextReached ft r t, cacheStep re d (nextReached ft r t) t i) := fun _ => rfl
    simp only [List.foldl_cons, hstep]
    generalize hg1 : nextReached ft r t = r1
    generalize hg2 : cacheStep re c r1 t i = c1
    have hc1nd : (keysOf c1).Nodup := by
      rw [← hg2]
      exact cacheStep_keys_nodup re r1 t i hc
    have hcrux : cacheStep re ((List.foldl (reconcileStep ft re) (r1, c1) s).2) r1 t i
        = (List.foldl (reconcileStep ft re) (r1, c1) s).2 := by
      rcases Bool.eq_false_or_eq_true r1 with hr1 | hr1
      · by_cases hm : matchesPat re t = true
        · obtain ⟨pr, hpr, _⟩ := cacheStep_lookup_upsert re (t := t) i c hm
          have hlc1 : lookupTag c1 t = some ⟨i, pr⟩ := by
            rw [← hg2, hr1]
            exact hpr
          have hlF : lookupTag ((List.foldl (reconcileStep ft re) (r1, c1) s).2) t
              = some ⟨i, pr⟩ := by
            rw [reconcileFold_lookup_ne ft re s r1 c1 hs.1]
            exact hlc1
          rw [hr1]
          rw [hr1] at hlF
          simp [cacheStep, hlF, hm]
        · rw [hr1]
          simp [cacheStep, hm]
      · have h1 : t ∉ keysOf c1 := by
          rw [← hg2, hr1]
          simpa [cacheStep] using delTag_not_mem_keys (c := c) (t := t) hc
        have h2 : t ∉ keysOf ((List.foldl (reconcileStep ft re) (r1, c1) s).2) :=
          reconcileFold_not_mem ft re s r1 c1 h1 hs.1
        rw [hr1]
        rw [hr1] at h2
        simp [cacheStep, delTag_of_not_mem h2]
    rw [hcrux]
    exact ih r1 c1 hs.2 hc1nd

/-- C5 counterexample: reconciliation is not idempotent for every stream —
when a tag name is observed both outside and inside the window, a second
run deletes and re-appends it, moving it after tags that were appended
later in the first run, so the resulting ordered cache differs. -/
theorem claim_C5_counterexample :
    reconcile (some "v2") none
        (reconcile (some "v2") none []
          [("a", "1"), ("v2", "v"), ("a", "2"), ("b", "3")])
        [("a", "1"), ("v2", "v"), ("a", "2"), ("b", "3")]
      ≠ reconcile (some "v2") none []
          [("a", "1"), ("v2", "v"), ("a", "2"), ("b", "3")] := by
  decide

/-- C5, amended: reconciliation is idempotent for streams that observe
each tag name at most once (as a VCS tag listing does) and caches with
unique keys (as every dict-loaded cache has): running reconcile a second
time with the same stream on the cache produced by the first run yields
the first output, order included. -/
theorem claim_C5_amended_idempotent (ft : Option String) (re : Option (String → Bool))
    (c : TagCache) (s : List (String × String))
    (hs : (s.map Prod.fst).Nodup) (hc : (keysOf c).Nodup) :
    reconcile ft re (reconcile ft re c s) s = reconcile ft re c s :=
  congrArg Prod.snd (reconcileFold_idem ft re s ft.isNone c hs hc)

/-- Witness for C5's amended theorem on the cutoff-window stream. -/
theorem claim_C5_witness :
    (([("v3", "x"), ("v2", "y"), ("v1", "z")].map Prod.fst).Nodup)
    ∧ (keysOf [("v1", TagRecord.mk "z0" true)]).Nodup
    ∧ reconcile (some "v2") none
        (reconcile (some "v2") none [("v1", TagRecord.mk "z0" true)]
          [("v3", "x"), ("v2", "y"), ("v1", "z")])
        [("v3", "x"), ("v2", "y"), ("v1", "z")]
      = reconcile (some "v2") none [("v1", TagRecord.mk "z0" true)]
          [("v3", "x"), ("v2", "y"), ("v1", "z")] :=
  ⟨by decide, by decide,
   claim_C5_amended_idempotent (some "v2") none [("v1", TagRecord.mk "z0" true)]
     [("v3", "x"), ("v2", "y"), ("v1", "z")] (by decide) (by decide)⟩

/-- Through the whole fold, any record that ends `processed:true` was
already stored, unchanged, before the fold: reconciliation never produces a
processed record. -/
theorem reconcileFold_processed_stable (ft : Option String) (re : Option (String → Bool)) :
    ∀ (s : List (String × String)) (rch : Bool) (c : TagCache) (t : String)
      (r : TagRecord), (keysOf c).Nodup →
      lookupTag ((List.foldl (reconcileStep ft re) (rch, c) s).2) t = some r →
      r.processed = true → lookupTag c t = some r := by
  intro s
  induction s with
  | nil => intro rch c t r _ h _; exact h
  | cons p s ih =>
    intro rch c t r hnd h hp
    obtain ⟨u, i⟩ := p
    simp only [List.foldl_cons] at h
    have h' : lookupTag (cacheStep re c (nextReached ft rch u) u i) t = some r :=
      ih (nextReached ft rch u) (cacheStep re c (nextReached ft rch u) u i) t r
        (cacheStep_keys_nodup re (nextReached ft rch u) u i hnd) h hp
    by_cases hut : u = t
    · subst hut
      rcases Bool.eq_false_or_eq_true (nextReached ft rch u) with hr1 | hr1
      · rw [hr1] at h'
        by_cases hm : matchesPat re u = true
        · obtain ⟨pr, hpr, hprev⟩ := cacheStep_lookup_upsert re (t := u) i c hm
          rw [hpr] at h'
          have hr : r = ⟨i, pr⟩ := (Option.some_inj.mp h').symm
          have hpr' : pr = true := by rw [hr] at hp; exact hp
          rw [hr, hpr']
          exact hprev hpr'
        · rw [show cacheStep re c true u i = c by simp [cacheStep, hm]] at h'
          exact h'
      · rw [hr1] at h'
        rw [show cacheStep re c false u i = delTag c u by simp [cacheStep]] at h'
        rw [lookupTag_eq_none.mpr (delTag_not_mem_keys hnd)] at h'
        exact absurd h' (by simp)
    · rw [cacheStep_lookup_ne re (nextReached ft rch u) i c hut] at h'
      exact h'

/-- C6: a cached tag observed inside the window whose stored revision id
differs from the observed one has its record replaced by
`{revisionId, processed:false}` in that very action; and across a whole
reconciliation over a unique-key cache, no mutation changes a record's
revision id while leaving `processed = true` — any `processed:true` record
in the output is exactly the record the input cache held. -/
theorem claim_C6_move_resets_processed :
    (∀ (ft : Option String) (re : Option (String → Bool)) (st : Bool × TagCache)
       (t i : String) (r : TagRecord),
       nextReached ft st.1 t = true → matchesPat re t = true →
       lookupTag st.2 t = some r → r.id ≠ i →
       lookupTag (reconcileStep ft re st (t, i)).2 t
         = some ⟨i, false⟩)
    ∧ (∀ (ft : Option String) (re : Option (String → Bool)) (c : TagCache)
         (s : List (String × String)) (t : String) (r : TagRecord),
         (keysOf c).Nodup → lookupTag (reconcile ft re c s) t = some r →
         r.processed = true → lookupTag c t = some r) := by
  constructor
  · intro ft re st t i r hnr hm hl hid
    show lookupTag (cacheStep re st.2 (nextReached ft st.1 t) t i) t = some ⟨i, false⟩
    rw [hnr]
    simp only [cacheStep, Bool.not_true, Bool.false_eq_true, if_false, hm, if_true, hl]
    rw [if_pos hid]
    exact lookupTag_setTag_self (lookupTag_some_mem hl)
  · intro ft re c s t r hnd h hp
    exact reconcileFold_processed_stable ft re s ft.isNone c t r hnd h hp

/-- Witness for C6: a moved tag record is replaced with the new id and a
cleared flag; a record still processed after reconciliation was stored
before it. -/
theorem claim_C6_witness :
    nextReached none true "v1" = true
    ∧ matchesPat none "v1" = true
    ∧ lookupTag [("v1", TagRecord.mk "a" true)] "v1" = some (TagRecord.mk "a" true)
    ∧ (TagRecord.mk "a" true).id ≠ "b"
    ∧ lookupTag (reconcileStep none none (true, [("v1", TagRecord.mk "a" true)])
        ("v1", "b")).2 "v1" = some (TagRecord.mk "b" false)
    ∧ (keysOf [("v1", TagRecord.mk "a" true)]).Nodup
    ∧ lookupTag (reconcile none none [("v1", TagRecord.mk "a" true)] []) "v1"
        = some (TagRecord.mk "a" true)
    ∧ lookupTag [("v1", TagRecord.mk "a" true)] "v1" = some (TagRecord.mk "a" true) :=
  ⟨by decide, by decide, by decide, by decide,
   claim_C6_move_resets_processed.1 none none (true, [("v1", TagRecord.mk "a" true)])
     "v1" "b" (TagRecord.mk "a" true) (by decide) (by decide) (by decide) (by decide),
   by decide, by decide,
   claim_C6_move_resets_processed.2 none none [("v1", TagRecord.mk "a" true)] []
     "v1" (TagRecord.mk "a" true) (by decide) (by decide) rfl⟩

/-- C2 counterexample: with `firstTag = "v2"` and the stream
`[("v3","x"), ("v2","y"), ("v1","z")]`, "v3" is observed *before* the
window opens at "v2", so reconciliation removes the cached "v3" and keeps
"v1" (observed after "v2", inside the window) — the opposite of the
claimed `{"v3", "v2"}`. -/
theorem claim_C2_counterexample :
    reconcile (some "v2") none
        [("v3", TagRecord.mk "x" true), ("v2", TagRecord.mk "y" true),
         ("v1", TagRecord.mk "z0" true)]
        [("v3", "x"), ("v2", "y"), ("v1", "z")]
      = [("v2", TagRecord.mk "y" true), ("v1", TagRecord.mk "z" false)]
    ∧ "v3" ∉ keysOf (reconcile (some "v2") none
        [("v3", TagRecord.mk "x" true), ("v2", TagRecord.mk "y" true),
         ("v1", TagRecord.mk "z0" true)]
        [("v3", "x"), ("v2", "y"), ("v1", "z")])
    ∧ "v1" ∈ keysOf (reconcile (some "v2") none
        [("v3", TagRecord.mk "x" true), ("v2", TagRecord.mk "y" true),
         ("v1", TagRecord.mk "z0" true)]
        [("v3", "x"), ("v2", "y"), ("v1", "z")]) := by
  refine ⟨by decide, by decide, by decide⟩

/-- C2, amended: with `firstTag = "v2"` and stream
`[("v3","x"), ("v2","y"), ("v1","z")]`, the window opens at the "v2" pair
(inclusive) and covers all pairs after it, so reconciliation starting from
any prior unique-key cache whose tags are among v1, v2, v3 yields a cache
that retains exactly the tags "v2" and "v1", and any previously cached
"v3" entry is removed.  (Tags the stream never observes would survive, so
the prior cache is restricted to the observed tag names.) -/
theorem claim_C2_amended_window (c : TagCache)
    (hnd : (keysOf c).Nodup) (hsub : keysOf c ⊆ ["v1", "v2", "v3"]) :
    "v2" ∈ keysOf (reconcile (some "v2") none c [("v3", "x"), ("v2", "y"), ("v1", "z")])
    ∧ "v1" ∈ keysOf (reconcile (some "v2") none c [("v3", "x"), ("v2", "y"), ("v1", "z")])
    ∧ "v3" ∉ keysOf (reconcile (some "v2") none c [("v3", "x"), ("v2", "y"), ("v1", "z")])
    ∧ keysOf (reconcile (some "v2") none c [("v3", "x"), ("v2", "y"), ("v1", "z")])
        ⊆ ["v2", "v1"] := by
  have e : reconcile (some "v2") none c [("v3", "x"), ("v2", "y"), ("v1", "z")]
      = cacheStep none (cacheStep none (delTag c "v3") true "v2" "y") true "v1" "z" := rfl
  have hnd1 : (keysOf (delTag c "v3")).Nodup := delTag_keys_nodup hnd
  have h1 : "v3" ∉ keysOf (delTag c "v3") := delTag_not_mem_keys hnd
  obtain ⟨pr2, hpr2, _⟩ :=
    cacheStep_lookup_upsert none (t := "v2") "y" (delTag c "v3") rfl
  obtain ⟨pr1, hpr1, _⟩ :=
    cacheStep_lookup_upsert none (t := "v1") "z"
      (cacheStep none (delTag c "v3") true "v2" "y") rfl
  have hl2 : lookupTag (cacheStep none (cacheStep none (delTag c "v3") true "v2" "y")
      true "v1" "z") "v2" = some ⟨"y", pr2⟩ := by
    rw [cacheStep_lookup_ne none true "z" _ (by decide)]
    exact hpr2
  rw [e]
  refine ⟨lookupTag_some_mem hl2, lookupTag_some_mem hpr1, ?_, ?_⟩
  · have h2 : "v3" ∉ keysOf (cacheStep none (delTag c "v3") true "v2" "y") :=
      cacheStep_not_mem none true "y" h1 (by decide)
    exact cacheStep_not_mem none true "z" h2 (by decide)
  · intro x hx
    have hx1 := cacheStep_keys_subset none true "v1" "z"
      (cacheStep none (delTag c "v3") true "v2" "y") hx
    rcases List.mem_cons.mp hx1 with hx1 | hx1
    · simp [hx1]
    · have hx2 := cacheStep_keys_subset none true "v2" "y" (delTag c "v3") hx1
      rcases List.mem_cons.mp hx2 with hx2 | hx2
      · simp [hx2]
      · have hxc : x ∈ keysOf c := ((delTag_sublist c "v3").map Prod.fst).subset hx2
        have hx3 : x ∈ (["v1", "v2", "v3"] : List String) := hsub hxc
        have hxne : x ≠ "v3" := fun hne => h1 (hne ▸ hx2)
        simp only [List.mem_cons, List.mem_singleton] at hx3 ⊢
        rcases hx3 with h | h | h | h
        · exact Or.inr (Or.inl h)
        · exact Or.inl h
        · exact absurd h hxne
        · exact absurd h (List.not_mem_nil x)

/-- Witness for C2's amended theorem on a prior cache holding "v3" and
"v1". -/
theorem claim_C2_witness :
    (keysOf [("v3", TagRecord.mk "x0" true), ("v1", TagRecord.mk "z0" false)]).Nodup
    ∧ keysOf [("v3", TagRecord.mk "x0" true), ("v1", TagRecord.mk "z0" false)]
        ⊆ ["v1", "v2", "v3"]
    ∧ "v2" ∈ keysOf (reconcile (some "v2") none
        [("v3", TagRecord.mk "x0" true), ("v1", TagRecord.mk "z0" false)]
        [("v3", "x"), ("v2", "y"), ("v1", "z")])
    ∧ "v3" ∉ keysOf (reconcile (some "v2") none
        [("v3", TagRecord.mk "x0" true), ("v1", TagRecord.mk "z0" false)]
        [("v3", "x"), ("v2", "y"), ("v1", "z")]) :=
  ⟨by decide, by decide,
   (claim_C2_amended_window [("v3", TagRecord.mk "x0" true), ("v1", TagRecord.mk "z0" false)]
     (by decide) (by decide)).1,
   (claim_C2_amended_window [("v3", TagRecord.mk "x0" true), ("v1", TagRecord.mk "z0" false)]
     (by decide) (by decide)).2.2.1⟩

/-- Building a string back from its own characters is the identity. -/
theorem stringMk_data (s : String) : String.mk s.data = s := rfl

/-- `skipWs` keeps a list headed by a non-whitespace character. -/
theorem skipWs_not_ws {c : Char} (h : ¬(c = ' ' ∨ c = '\n' ∨ c = '\t' ∨ c = '\r'))
    (cs : List Char) : skipWs (c :: cs) = c :: cs := by
  simp [skipWs, h]

/-- `skipWs` swallows the optional single-space prefix the serializer
writes after `','` and `':'`. -/
theorem skipWs_sp {sp : List Char} (hsp : sp = [] ∨ sp = [' ']) (l : List Char) :
    skipWs (sp ++ l) = skipWs l := by
  rcases hsp with rfl | rfl
  · rfl
  · simp [skipWs]

/-- Every serialized value starts with a significant character: not
whitespace, and never the `']'` that closes an enclosing array. -/
theorem dump_head (v : JValue) :
    ∃ c t, jdump v = c :: t
      ∧ ¬(c = ' ' ∨ c = '\n' ∨ c = '\t' ∨ c = '\r') ∧ c ≠ ']' := by
  cases v with
  | null => exact ⟨'n', _, rfl, by decide, by decide⟩
  | bool b =>
    cases b with
    | false => exact ⟨'f', _, rfl, by decide, by decide⟩
    | true => exact ⟨'t', _, rfl, by decide, by decide⟩
  | str s => exact ⟨'"', _, rfl, by decide, by decide⟩
  | arr xs => exact ⟨'[', _, rfl, by decide, by decide⟩
  | obj fs => exact ⟨'{', _, rfl, by decide, by decide⟩

/-- `skipWs` leaves a serialized value (with its optional space prefix)
at the value's first character. -/
theorem skipWs_dump {sp : List Char} (hsp : sp = [] ∨ sp = [' ']) (v : JValue)
    (rest : List Char) : skipWs (sp ++ (jdump v ++ rest)) = jdump v ++ rest := by
  obtain ⟨c, t, hd, hws, _⟩ := dump_head v
  rw [skipWs_sp hsp, hd]
  exact skipWs_not_ws hws _

/-- A nonempty serialized field list starts with the opening quote of its
first key. -/
theorem jdumpFields_head (k : String) (v : JValue) :
    ∀ fs : List (String × JValue), ∃ t', jdumpFields ((k, v) :: fs) = '"' :: t' := by
  intro fs
  cases fs with
  | nil =>
    refine ⟨(k.data.map escChar).flatten ++ '"' :: ':' :: ' ' :: jdump v, ?_⟩
    simp [jdumpFields, dumpStr]
  | cons g gs =>
    refine ⟨(k.data.map escChar).flatten
      ++ '"' :: ':' :: ' ' :: (jdump v ++ ',' :: ' ' :: jdumpFields (g :: gs)), ?_⟩
    simp [jdumpFields, dumpStr]

/-- A nonempty serialized element list starts with its first value's first
character. -/
theorem jdumpElems_head {x : JValue} {c : Char} {t : List Char} (h : jdump x = c :: t) :
    ∀ xs : List JValue, ∃ t', jdumpElems (x :: xs) = c :: t' := by
  intro xs
  cases xs with
  | nil => exact ⟨t, h⟩
  | cons y ys =>
    refine ⟨t ++ ',' :: ' ' :: jdumpElems (y :: ys), ?_⟩
    simp [jdumpElems, h]

/-- Matching a keyword literal against itself followed by anything. -/
theorem parseLit_self (pat rest : List Char) : parseLit pat (pat ++ rest) = some rest := by
  induction pat with
  | nil => rfl
  | cons p ps ih => simpa [parseLit] using ih

/-- Parsing back a serialized string body: every source character comes
out as itself, whether it was escaped or copied. -/
theorem parseStrBody_dump :
    ∀ (l acc rest : List Char) (f : Nat), l.all charOk = true →
      ((l.map escChar).flatten).length + 1 ≤ f →
      parseStrBody f acc ((l.map escChar).flatten ++ '"' :: rest)
        = some (String.mk (acc.reverse ++ l), rest) := by
  intro l
  induction l with
  | nil =>
    intro acc rest f _ hf
    obtain ⟨f', rfl⟩ : ∃ f', f = f' + 1 := ⟨f - 1, by omega⟩
    simp [parseStrBody]
  | cons c l ih =>
    intro acc rest f hok hf
    simp only [List.all_cons, Bool.and_eq_true] at hok
    simp only [List.map_cons, List.flatten_cons, List.length_append] at hf
    obtain ⟨f', rfl⟩ : ∃ f', f = f' + 1 := ⟨f - 1, by omega⟩
    simp only [List.map_cons, List.flatten_cons, List.append_assoc]
    by_cases hc1 : c = '"'
    · subst hc1
      have he : escChar '"' = ['\\', '"'] := by decide
      rw [he]
      simp only [List.cons_append, List.nil_append]
      rw [show parseStrBody (f' + 1) acc
            ('\\' :: '"' :: ((l.map escChar).flatten ++ '"' :: rest))
          = parseStrBody f' ('"' :: acc) ((l.map escChar).flatten ++ '"' :: rest) by
        simp [parseStrBody, unescape]]
      rw [ih ('"' :: acc) rest f' hok.2 (by
        rw [he] at hf
        simp only [List.length_cons, List.length_nil] at hf
        omega)]
      simp
    · by_cases hc2 : c = '\\'
      · subst hc2
        have he : escChar '\\' = ['\\', '\\'] := by decide
        rw [he]
        simp only [List.cons_append, List.nil_append]
        rw [show parseStrBody (f' + 1) acc
              ('\\' :: '\\' :: ((l.map escChar).flatten ++ '"' :: rest))
            = parseStrBody f' ('\\' :: acc) ((l.map escChar).flatten ++ '"' :: rest) by
          simp [parseStrBody, unescape]]
        rw [ih ('\\' :: acc) rest f' hok.2 (by
          rw [he] at hf
          simp only [List.length_cons, List.length_nil] at hf
          omega)]
        simp
      · have he : escChar c = [c] := by simp [escChar, hc1, hc2]
        rw [he]
        simp only [List.cons_append, List.nil_append]
        rw [show parseStrBody (f' + 1) acc
              (c :: ((l.map escChar).flatten ++ '"' :: rest))
            = parseStrBody f' (c :: acc) ((l.map escChar).flatten ++ '"' :: rest) by
          simp [parseStrBody, hc1, hc2]]
        rw [ih (c :: acc) rest f' hok.2 (by
          rw [he] at hf
          simp only [List.length_cons, List.length_nil] at hf
          omega)]
        simp

/-- A leading space is consumed before a value. -/
theorem parseVal_space (f : Nat) (cs : List Char) :
    parseVal (f + 1) (' ' :: cs) = parseVal (f + 1) cs := rfl

/-- A leading space is consumed before a field key. -/
theorem parseFields_space (f : Nat) (cs : List Char) :
    parseFields (f + 1) (' ' :: cs) = parseFields (f + 1) cs := rfl

mutual

/-- Parsing back a serialized value — optionally preceded by the single
space the serializer writes after `','` and `':'` — returns exactly that
value and leaves the remainder untouched, given enough fuel. -/
theorem parseVal_jdump (v : JValue) :
    ∀ (sp rest : List Char) (f : Nat), (sp = [] ∨ sp = [' ']) → reprOk v = true →
      2 * (sp ++ (jdump v ++ rest)).length + 3 ≤ f →
      parseVal f (sp ++ (jdump v ++ rest)) = some (v, rest) := by
  intro sp rest f hsp hok hf
  obtain ⟨f₁, rfl⟩ : ∃ f₁, f = f₁ + 1 := ⟨f - 1, by omega⟩
  suffices h : parseVal (f₁ + 1) (jdump v ++ rest) = some (v, rest) by
    rcases hsp with rfl | rfl
    · simpa using h
    · simpa [parseVal_space] using h
  cases v with
  | null => rfl
  | bool b => cases b <;> rfl
  | str s =>
    have hok' : s.data.all charOk = true := by simpa [reprOk] using hok
    have hfuel : ((s.data.map escChar).flatten).length + 1 ≤ f₁ := by
      simp only [jdump, dumpStr, List.length_append, List.length_cons,
        List.length_nil] at hf
      omega
    rw [show jdump (JValue.str s) ++ rest
        = '"' :: ((s.data.map escChar).flatten ++ ('"' :: rest)) by
      simp [jdump, dumpStr]]
    have hps := parseStrBody_dump s.data [] rest f₁ hok' hfuel
    simp [parseVal, skipWs, hps, stringMk_data]
  | arr xs =>
    cases xs with
    | nil => rfl
    | cons x xs' =>
      obtain ⟨c, t, hd, hws, hnb⟩ := dump_head x
      obtain ⟨t', helems⟩ := jdumpElems_head hd xs'
      have hok1 : reprOkElems (x :: xs') = true := by simpa [reprOk] using hok
      have hfe : 2 * (([] : List Char)
          ++ (jdumpElems (x :: xs') ++ (']' :: rest))).length + 4 ≤ f₁ := by
        simp only [jdump, List.nil_append, List.length_append, List.length_cons,
          List.length_nil] at hf ⊢
        omega
      have hPE := parseElems_jdump (x :: xs') [] rest f₁ (by simp) (Or.inl rfl) hok1 hfe
      simp only [List.nil_append] at hPE
      rw [show jdump (JValue.arr (x :: xs')) ++ rest
          = '[' :: (jdumpElems (x :: xs') ++ (']' :: rest)) by simp [jdump]]
      have h0 : skipWs ('[' :: (jdumpElems (x :: xs') ++ (']' :: rest)))
          = '[' :: (jdumpElems (x :: xs') ++ (']' :: rest)) := by simp [skipWs]
      simp only [parseVal, h0]
      have hskipcs : skipWs (jdumpElems (x :: xs') ++ (']' :: rest))
          = c :: (t' ++ (']' :: rest)) := by
        rw [helems]
        exact skipWs_not_ws hws _
      rw [hskipcs]
      split
      · next cs2 heq =>
        rw [List.cons.injEq] at heq
        exact absurd heq.1 hnb
      · rw [hPE]
        rfl
  | obj fs =>
    cases fs with
    | nil => rfl
    | cons kv fs' =>
      obtain ⟨k, v, rfl⟩ : ∃ k v, kv = (k, v) := ⟨kv.1, kv.2, rfl⟩
      obtain ⟨t', hfields⟩ := jdumpFields_head k v fs'
      have hok1 : reprOkFields ((k, v) :: fs') = true := by simpa [reprOk] using hok
      have hff : 2 * (([] : List Char)
          ++ (jdumpFields ((k, v) :: fs') ++ ('}' :: rest))).length + 4 ≤ f₁ := by
        simp only [jdump, List.nil_append, List.length_append, List.length_cons,
          List.length_nil] at hf ⊢
        omega
      have hPF := parseFields_jdump ((k, v) :: fs') [] rest f₁ (by simp) (Or.inl rfl)
        hok1 hff
      simp only [List.nil_append] at hPF
      rw [show jdump (JValue.obj ((k, v) :: fs')) ++ rest
          = '{' :: (jdumpFields ((k, v) :: fs') ++ ('}' :: rest)) by simp [jdump]]
      have h0 : skipWs ('{' :: (jdumpFields ((k, v) :: fs') ++ ('}' :: rest)))
          = '{' :: (jdumpFields ((k, v) :: fs') ++ ('}' :: rest)) := by simp [skipWs]
      simp only [parseVal, h0]
      have hskipcs : skipWs (jdumpFields ((k, v) :: fs') ++ ('}' :: rest))
          = '"' :: (t' ++ ('}' :: rest)) := by
        rw [hfields]
        exact skipWs_not_ws (by decide) _
      rw [hskipcs]
      split
      · next cs2 heq =>
        rw [List.cons.injEq] at heq
        exact absurd heq.1 (by decide)
      · rw [hPF]
        rfl
termination_by sizeOf v
decreasing_by all_goals (subst_vars; simp; try omega)

/-- Parsing back a serialized nonempty element list followed by `']'`. -/
theorem parseElems_jdump (xs : List JValue) :
    ∀ (sp rest : List Char) (f : Nat), xs ≠ [] → (sp = [] ∨ sp = [' ']) →
      reprOkElems xs = true →
      2 * (sp ++ (jdumpElems xs ++ (']' :: rest))).length + 4 ≤ f →
      parseElems f (sp ++ (jdumpElems xs ++ (']' :: rest))) = some (xs, rest) := by
  intro sp rest f hne hsp hok hf
  obtain ⟨f₁, rfl⟩ : ∃ f₁, f = f₁ + 1 := ⟨f - 1, by omega⟩
  cases xs with
  | nil => exact absurd rfl hne
  | cons x xs' =>
    have hok' : reprOk x = true ∧ reprOkElems xs' = true := by
      simpa [reprOkElems, Bool.and_eq_true] using hok
    cases xs' with
    | nil =>
      have hfv : 2 * (sp ++ (jdump x ++ (']' :: rest))).length + 3 ≤ f₁ := by
        simp only [jdumpElems, List.length_append, List.length_cons] at hf ⊢
        omega
      have hPV := parseVal_jdump x sp (']' :: rest) f₁ hsp hok'.1 hfv
      simp only [parseElems]
      rw [show jdumpElems [x] = jdump x from rfl, hPV]
      simp [skipWs]
    | cons y ys =>
      have hfv : 2 * (sp ++ (jdump x
          ++ (',' :: (' ' :: (jdumpElems (y :: ys) ++ (']' :: rest)))))).length + 3
            ≤ f₁ := by
        simp only [jdumpElems, List.length_append, List.length_cons] at hf ⊢
        omega
      have hfe : 2 * (([' '] : List Char)
          ++ (jdumpElems (y :: ys) ++ (']' :: rest))).length + 4 ≤ f₁ := by
        simp only [jdumpElems, List.length_append, List.length_cons,
          List.length_nil] at hf ⊢
        omega
      have hPV := parseVal_jdump x sp
        (',' :: (' ' :: (jdumpElems (y :: ys) ++ (']' :: rest)))) f₁ hsp hok'.1 hfv
      have hPE := parseElems_jdump (y :: ys) [' '] rest f₁ (by simp) (Or.inr rfl)
        hok'.2 hfe
      simp only [List.cons_append, List.nil_append] at hPE
      simp only [parseElems]
      rw [show sp ++ (jdumpElems (x :: y :: ys) ++ (']' :: rest))
          = sp ++ (jdump x
              ++ (',' :: (' ' :: (jdumpElems (y :: ys) ++ (']' :: rest))))) by
        simp [jdumpElems]]
      rw [hPV]
      simp [skipWs, hPE]
termination_by sizeOf xs
decreasing_by all_goals (subst_vars; simp; try omega)

/-- Parsing back a serialized nonempty field list followed by `'}'`. -/
theorem parseFields_jdump (fs : List (String × JValue)) :
    ∀ (sp rest : List Char) (f : Nat), fs ≠ [] → (sp = [] ∨ sp = [' ']) →
      reprOkFields fs = true →
      2 * (sp ++ (jdumpFields fs ++ ('}' :: rest))).length + 4 ≤ f →
      parseFields f (sp ++ (jdumpFields fs ++ ('}' :: rest))) = some (fs, rest) := by
  intro sp rest f hne hsp hok hf
  obtain ⟨f₁, rfl⟩ : ∃ f₁, f = f₁ + 1 := ⟨f - 1, by omega⟩
  cases fs with
  | nil => exact absurd rfl hne
  | cons kv fs' =>
    obtain ⟨k, v, rfl⟩ : ∃ k v, kv = (k, v) := ⟨kv.1, kv.2, rfl⟩
    have hok' : k.data.all charOk = true ∧ reprOk v = true
        ∧ reprOkFields fs' = true := by
      simpa [reprOkFields, Bool.and_eq_true, and_assoc] using hok
    suffices h : parseFields (f₁ + 1) (jdumpFields ((k, v) :: fs') ++ ('}' :: rest))
        = some ((k, v) :: fs', rest) by
      rcases hsp with rfl | rfl
      · simpa using h
      · simpa [parseFields_space] using h
    cases fs' with
    | nil =>
      have hfs : ((k.data.map escChar).flatten).length + 1 ≤ f₁ := by
        simp only [jdumpFields, dumpStr, List.length_append, List.length_cons,
          List.length_nil] at hf
        omega
      have hfv : 2 * (([' '] : List Char) ++ (jdump v ++ ('}' :: rest))).length + 3
          ≤ f₁ := by
        simp only [jdumpFields, dumpStr, List.length_append, List.length_cons,
          List.length_nil] at hf ⊢
        omega
      have hps := parseStrBody_dump k.data [] (':' :: (' ' :: (jdump v ++ ('}' :: rest))))
        f₁ hok'.1 hfs
      have hPV := parseVal_jdump v [' '] ('}' :: rest) f₁ (Or.inr rfl) hok'.2.1 hfv
      simp only [List.cons_append, List.nil_append] at hPV
      rw [show jdumpFields [(k, v)] ++ ('}' :: rest)
          = '"' :: ((k.data.map escChar).flatten
              ++ ('"' :: (':' :: (' ' :: (jdump v ++ ('}' :: rest)))))) by
        simp [jdumpFields, dumpStr]]
      simp only [parseFields]
      simp [skipWs, hps, hPV, stringMk_data]
    | cons g gs =>
      have hfs : ((k.data.map escChar).flatten).length + 1 ≤ f₁ := by
        simp only [jdumpFields, dumpStr, List.length_append, List.length_cons,
          List.length_nil] at hf
        omega
      have hfv : 2 * (([' '] : List Char) ++ (jdump v
          ++ (',' :: (' ' :: (jdumpFields (g :: gs) ++ ('}' :: rest)))))).length + 3
            ≤ f₁ := by
        simp only [jdumpFields, dumpStr, List.length_append, List.length_cons,
          List.length_nil] at hf ⊢
        omega
      have hff : 2 * (([' '] : List Char)
          ++ (jdumpFields (g :: gs) ++ ('}' :: rest))).length + 4 ≤ f₁ := by
        simp only [jdumpFields, dumpStr, List.length_append, List.length_cons,
          List.length_nil] at hf ⊢
        omega
      have hps := parseStrBody_dump k.data []
        (':' :: (' ' :: (jdump v ++ (',' :: (' ' :: (jdumpFields (g :: gs)
          ++ ('}' :: rest))))))) f₁ hok'.1 hfs
      have hPV := parseVal_jdump v [' ']
        (',' :: (' ' :: (jdumpFields (g :: gs) ++ ('}' :: rest)))) f₁ (Or.inr rfl)
        hok'.2.1 hfv
      simp only [List.cons_append, List.nil_append] at hPV
      have hPF := parseFields_jdump (g :: gs) [' '] rest f₁ (by simp) (Or.inr rfl)
        hok'.2.2 hff
      simp only [List.cons_append, List.nil_append] at hPF
      rw [show jdumpFields ((k, v) :: g :: gs) ++ ('}' :: rest)
          = '"' :: ((k.data.map escChar).flatten
              ++ ('"' :: (':' :: (' ' :: (jdump v
                ++ (',' :: (' ' :: (jdumpFields (g :: gs) ++ ('}' :: rest))))))))) by
        simp [jdumpFields, dumpStr]]
      simp only [parseFields]
      simp [skipWs, hps, hPV, hPF, stringMk_data]
termination_by sizeOf fs
decreasing_by all_goals (subst_vars; simp; try omega)

end

/-- Saving a cache value and loading the written text recovers it. -/
theorem jparse_jsave (v : JValue) (hok : reprOk v = true) :
    jparse (jsave v) = some v := by
  have hfu : 2 * (([] : List Char) ++ (jdump v ++ ([] : List Char))).length + 3
      ≤ 2 * (jdump v).length + 3 := by
    simp
  have h := parseVal_jdump v [] [] (2 * (jdump v).length + 3) (Or.inl rfl) hok hfu
  simp only [List.nil_append, List.append_nil] at h
  unfold jparse jsave
  rw [show (String.mk (jdump v)).data = jdump v from rfl]
  rw [h]
  simp [skipWs]

/-- C7: saving an in-memory cache value to the persisted JSON text and
loading it back reproduces an identical value — same keys, same `id` and
`processed` values, same field order — and any value a cache file was
loaded into, unknown top-level or per-tag keys included, survives a
load/save cycle.  `reprOk` restricts the statement to values whose strings
the model serializes exactly as Python does (printable ASCII). -/
theorem claim_C7_roundtrip :
    (∀ v : JValue, reprOk v = true → jparse (jsave v) = some v)
    ∧ (∀ (s : String) (v : JValue), jparse s = some v → reprOk v = true →
        jparse (jsave v) = some v) :=
  ⟨fun v hok => jparse_jsave v hok, fun _ v _ hok => jparse_jsave v hok⟩

/-- Witness for C7 on a cache with an unknown per-tag key (`extra`) and an
unknown top-level key (`future`). -/
theorem claim_C7_witness :
    reprOk (JValue.obj
      [("tags", JValue.obj
        [("v1", JValue.obj [("id", JValue.str "abc"), ("processed", JValue.bool true),
                            ("extra", JValue.null)])]),
       ("future", JValue.arr [JValue.str "x", JValue.bool false])]) = true
    ∧ jparse (jsave (JValue.obj
      [("tags", JValue.obj
        [("v1", JValue.obj [("id", JValue.str "abc"), ("processed", JValue.bool true),
                            ("extra", JValue.null)])]),
       ("future", JValue.arr [JValue.str "x", JValue.bool false])]))
      = some (JValue.obj
      [("tags", JValue.obj
        [("v1", JValue.obj [("id", JValue.str "abc"), ("processed", JValue.bool true),
                            ("extra", JValue.null)])]),
       ("future", JValue.arr [JValue.str "x", JValue.bool false])]) :=
  ⟨by decide, claim_C7_roundtrip.1 _ (by decide)⟩

end September
